import Mathlib

/-!
# Verification of the `dimmer` brightness ramper (src/main.rs)

Shallow embedding of the single-file Rust program `dimmer`.  Brightness
values are `u64` in the source; they are modelled as `ℕ` (all arithmetic
on them in the source is within `u64` range on the reachable states, see
the comments at each definition).  Fallible operations return `Option`;
the `u64` division-by-zero panic is made explicit through `checkedDiv`.
-/

set_option maxHeartbeats 1000000
set_option autoImplicit false
set_option linter.unusedVariables false

namespace Dimmer

/-! ## The ramp loop (src/main.rs lines 147–173) -/

/-- One iteration of the ramp loop body (src/main.rs lines 158–168):

    if dimming {
        if brightness.0 < step_size { brightness = Brightness(0); }
        else { brightness = Brightness(brightness.0 - step_size); }
    } else if (target.0 - brightness.0) < step_size { brightness = target; }
    else { brightness = Brightness(brightness.0 + step_size); }

`ℕ` subtraction truncates at 0 exactly like the guarded `u64` subtraction
in the source; in the increasing branch the source computes
`target.0 - brightness.0` which never underflows on reachable states
(`brightness ≤ target` is invariant there). -/
def step (dimming : Bool) (step_size target brightness : ℕ) : ℕ :=
  if dimming then
    if brightness < step_size then 0
    else brightness - step_size
  else if target - brightness < step_size then target
  else brightness + step_size

/-- Brightness after `n` iterations of the loop body starting from `b`. -/
def rampSeq (dimming : Bool) (step_size target : ℕ) : ℕ → ℕ → ℕ
  | b, 0 => b
  | b, n + 1 => rampSeq dimming step_size target (step dimming step_size target b) n

/-- The list of values passed to `set_brightness` by the `n` loop
iterations, in order (one write per frame, src/main.rs line 170). -/
def rampWrites (dimming : Bool) (step_size target : ℕ) : ℕ → ℕ → List ℕ
  | _, 0 => []
  | b, n + 1 =>
    step dimming step_size target b ::
      rampWrites dimming step_size target (step dimming step_size target b) n

/-- `u64` division as in Rust: panics (here `none`) when the divisor is 0. -/
def checkedDiv (a b : ℕ) : Option ℕ := if b = 0 then none else some (a / b)

/-- Outcome of the ramp portion of `main` (src/main.rs lines 149–173). -/
inductive RampOutcome where
  /-- the `step_size` division panicked (divide by zero) -/
  | fault : RampOutcome
  /-- `exit(0)` taken at line 152: no device write, success -/
  | noop : RampOutcome
  /-- the loop ran; `writes` are the values written, in order -/
  | ramp (writes : List ℕ) : RampOutcome
  deriving DecidableEq

/-- The ramp portion of `main` (src/main.rs lines 149–173):

    let (step_size, dimming): (u64, bool) = match (target.0, stored.0) {
        (t, o) if t > o => ((t - o) / total_frames, false),
        (t, o) if o > t => ((o - t) / total_frames, true),
        (_t, _o) => exit(0),
    };
    ... for _i in 0..total_frames { ... }

The division is the source's `u64` `/`, which panics when
`total_frames = 0`; `exit(0)` is taken before the brightness file is even
created, so `noop` entails no device write. -/
def mainRamp (stored target total_frames : ℕ) : RampOutcome :=
  if target > stored then
    match checkedDiv (target - stored) total_frames with
    | none => .fault
    | some s => .ramp (rampWrites false s target stored total_frames)
  else if stored > target then
    match checkedDiv (stored - target) total_frames with
    | none => .fault
    | some s => .ramp (rampWrites true s target stored total_frames)
  else .noop

/-- `let total_frames = duration * opt.framerate;` (src/main.rs line 147). -/
def total_frames (duration framerate : ℕ) : ℕ := duration * framerate

/-- The argument of the per-frame sleep (src/main.rs line 171):
`std::thread::sleep(std::time::Duration::from_millis(1000 / 60))`.
The configured framerate does not occur in the expression; the parameter
is the configured `--framerate` value, recorded here only to express that
fact. -/
def frameSleepMillis (framerate : ℕ) : ℕ := 1000 / 60

/-- `let target = if target > maximum { maximum } else { target };`
(src/main.rs line 145). -/
def clampedTarget (target maximum : ℕ) : ℕ :=
  if target > maximum then maximum else target

/-! ## Trajectory lemmas for the loop -/

/-- Decreasing branch, closed form: as long as the remaining budget keeps
the value at or above `t + n*s`, the clamp-to-zero branch is never taken
and each frame subtracts exactly `s`. -/
theorem rampSeq_dec (s t : ℕ) :
    ∀ n b, t + n * s ≤ b → rampSeq true s t b n = b - n * s := by
  intro n
  induction n with
  | zero => intro b _; simp [rampSeq]
  | succ n ih =>
    intro b hb
    have hmul : (n + 1) * s = n * s + s := by ring
    have hnb : ¬ b < s := by omega
    have hstep : step true s t b = b - s := by simp [step, hnb]
    rw [rampSeq, hstep, ih (b - s) (by omega)]
    omega

/-- Increasing branch, closed form: as long as `b + n*s ≤ t`, the
snap-to-target branch is never taken and each frame adds exactly `s`. -/
theorem rampSeq_inc (s t : ℕ) :
    ∀ n b, b + n * s ≤ t → rampSeq false s t b n = b + n * s := by
  intro n
  induction n with
  | zero => intro b _; simp [rampSeq]
  | succ n ih =>
    intro b hb
    have hmul : (n + 1) * s = n * s + s := by ring
    have hni : ¬ t - b < s := by omega
    have hstep : step false s t b = b + s := by simp [step, hni]
    rw [rampSeq, hstep, ih (b + s) (by omega)]
    omega

/-- The writes of a run are nonempty when at least one frame runs, and the
last write is the final loop state. -/
theorem rampWrites_getLast? (dm : Bool) (s t : ℕ) :
    ∀ n b, 1 ≤ n →
      (rampWrites dm s t b n).getLast? = some (rampSeq dm s t b n) := by
  intro n
  induction n with
  | zero => intro b h; omega
  | succ n ih =>
    intro b _
    rcases Nat.eq_zero_or_pos n with hn | hn
    · subst hn; simp [rampWrites, rampSeq]
    · have htail := ih (step dm s t b) hn
      obtain ⟨m, rfl⟩ : ∃ m, n = m + 1 := ⟨n - 1, by omega⟩
      rw [rampSeq]
      rw [show rampWrites dm s t b (m + 1 + 1) =
            step dm s t b :: rampWrites dm s t (step dm s t b) (m + 1) from rfl]
      rw [show rampWrites dm s t (step dm s t b) (m + 1) =
            step dm s t (step dm s t b) ::
              rampWrites dm s t (step dm s t (step dm s t b)) m from rfl] at htail ⊢
      rw [List.getLast?_cons_cons]
      exact htail

/-- Every write of the decreasing branch stays in `[t, b]` when the
budget hypothesis holds. -/
theorem rampWrites_dec_mem (s t : ℕ) :
    ∀ n b, t + n * s ≤ b →
      ∀ w ∈ rampWrites true s t b n, t ≤ w ∧ w ≤ b := by
  intro n
  induction n with
  | zero => intro b _ w hw; simp [rampWrites] at hw
  | succ n ih =>
    intro b hb w hw
    have hmul : (n + 1) * s = n * s + s := by ring
    have hnb : ¬ b < s := by omega
    have hstep : step true s t b = b - s := by simp [step, hnb]
    rw [rampWrites, hstep] at hw
    rcases List.mem_cons.mp hw with hw | hw
    · subst hw; omega
    · have := ih (b - s) (by omega) w hw
      omega

/-- Every write of the increasing branch stays in `[b, t]` when the
budget hypothesis holds. -/
theorem rampWrites_inc_mem (s t : ℕ) :
    ∀ n b, b + n * s ≤ t →
      ∀ w ∈ rampWrites false s t b n, b ≤ w ∧ w ≤ t := by
  intro n
  induction n with
  | zero => intro b _ w hw; simp [rampWrites] at hw
  | succ n ih =>
    intro b hb w hw
    have hmul : (n + 1) * s = n * s + s := by ring
    have hni : ¬ t - b < s := by omega
    have hstep : step false s t b = b + s := by simp [step, hni]
    rw [rampWrites, hstep] at hw
    rcases List.mem_cons.mp hw with hw | hw
    · subst hw; omega
    · have := ih (b + s) (by omega) w hw
      omega

/-! ## Claims C1, C2, C3, C10 -/

/-- C1 (counterexample): a decreasing ramp from 10 to 0 over 3 frames has
step size `10 / 3 = 3` and writes `7, 4, 1`; the final written value is
`1`, not the (clamped) target `0`, although `stored ≠ target` and
`totalFrames ≥ 1`. -/
theorem C1_counterexample :
    (10 : ℕ) ≠ 0 ∧ (1 : ℕ) ≤ 3 ∧
      mainRamp 10 0 3 = .ramp [7, 4, 1] ∧
      ([7, 4, 1] : List ℕ).getLast? ≠ some 0 := by
  refine ⟨by decide, by decide, ?_, by decide⟩
  decide

/-- C1 (amended): for every ramp run with `stored ≠ target` and
`totalFrames ≥ 1` **such that `totalFrames` divides `|target − stored|`**,
the brightness value produced by the final loop iteration equals exactly
the target, in both directions. -/
theorem C1_final_write_eq_target (stored target n : ℕ) (hne : stored ≠ target)
    (hn : 1 ≤ n) (hdvd : n ∣ max stored target - min stored target) :
    ∃ ws, mainRamp stored target n = .ramp ws ∧ ws.getLast? = some target := by
  have hn0 : n ≠ 0 := by omega
  rcases lt_or_gt_of_ne hne with h | h
  · have hmm : max stored target - min stored target = target - stored := by omega
    rw [hmm] at hdvd
    have hns : n * ((target - stored) / n) = target - stored := Nat.mul_div_cancel' hdvd
    have hmr : mainRamp stored target n =
        .ramp (rampWrites false ((target - stored) / n) target stored n) := by
      simp [mainRamp, h, checkedDiv, hn0]
    refine ⟨_, hmr, ?_⟩
    rw [rampWrites_getLast? false ((target - stored) / n) target n stored hn]
    rw [rampSeq_inc ((target - stored) / n) target n stored (by omega)]
    congr 1
    omega
  · have hmm : max stored target - min stored target = stored - target := by omega
    rw [hmm] at hdvd
    have hns : n * ((stored - target) / n) = stored - target := Nat.mul_div_cancel' hdvd
    have h1 : ¬ stored < target := by omega
    have hmr : mainRamp stored target n =
        .ramp (rampWrites true ((stored - target) / n) target stored n) := by
      simp [mainRamp, h1, h, checkedDiv, hn0]
    refine ⟨_, hmr, ?_⟩
    rw [rampWrites_getLast? true ((stored - target) / n) target n stored hn]
    rw [rampSeq_dec ((stored - target) / n) target n stored (by omega)]
    congr 1
    omega

/-- C1 (witness): the amended claim at `stored = 10`, `target = 0`,
`totalFrames = 2` (step size 5, writes `5, 0`). -/
theorem C1_final_write_eq_target_witness :
    ∃ ws, mainRamp 10 0 2 = .ramp ws ∧ ws.getLast? = some 0 :=
  C1_final_write_eq_target 10 0 2 (by decide) (by decide) (by decide)

/-- C2: when the stored (current) brightness equals the resolved target,
the ramp portion of `main` takes the `exit(0)` branch before the
brightness-control file is created: no device write occurs and the
process terminates with success. -/
theorem C2_noop_when_equal (stored target n : ℕ) (h : stored = target) :
    mainRamp stored target n = .noop := by
  subst h
  simp [mainRamp]

/-- C2 (witness): the no-op at `stored = target = 42`. -/
theorem C2_noop_when_equal_witness : mainRamp 42 42 300 = RampOutcome.noop :=
  C2_noop_when_equal 42 42 300 rfl

/-- C3: the per-frame step-size computation divides `|target − stored|`
by `totalFrames` without any guard: when `totalFrames = 0` and
`stored ≠ target` the division faults (divide by zero), and under the
precondition `totalFrames ≥ 1` the computation never faults. -/
theorem C3_div_by_zero (stored target : ℕ) :
    (stored ≠ target → mainRamp stored target 0 = .fault) ∧
    (∀ n, 1 ≤ n → mainRamp stored target n ≠ .fault) := by
  constructor
  · intro hne
    rcases lt_or_gt_of_ne hne with h | h
    · simp [mainRamp, h, checkedDiv]
    · have h1 : ¬ stored < target := by omega
      simp [mainRamp, h1, h, checkedDiv]
  · intro n hn hfault
    have hn0 : n ≠ 0 := by omega
    by_cases h1 : stored < target
    · simp [mainRamp, h1, checkedDiv, hn0] at hfault
    · by_cases h2 : target < stored
      · simp [mainRamp, h1, h2, checkedDiv, hn0] at hfault
      · have h3 : stored = target := by omega
        subst h3
        simp [mainRamp] at hfault

/-- C3 (witness): the fault at `stored = 1`, `target = 0`,
`totalFrames = 0`, and the absence of a fault at `totalFrames = 60`. -/
theorem C3_div_by_zero_witness :
    mainRamp 1 0 0 = RampOutcome.fault ∧ mainRamp 1 0 60 ≠ RampOutcome.fault :=
  ⟨(C3_div_by_zero 1 0).1 (by decide), (C3_div_by_zero 1 0).2 60 (by decide)⟩

/-- C10: for every ramp run with `stored ≠ target` and `totalFrames ≥ 1`,
every value written during the loop lies within
`[min(stored, target), max(stored, target)]`; in particular in the
decreasing case no write drops below the target, so the clamp-to-zero
branch never produces a value below the target. -/
theorem C10_writes_within_bounds (stored target n : ℕ)
    (hne : stored ≠ target) (hn : 1 ≤ n) :
    ∃ ws, mainRamp stored target n = .ramp ws ∧
      ∀ w ∈ ws, min stored target ≤ w ∧ w ≤ max stored target := by
  have hn0 : n ≠ 0 := by omega
  rcases lt_or_gt_of_ne hne with h | h
  · have hmr : mainRamp stored target n =
        .ramp (rampWrites false ((target - stored) / n) target stored n) := by
      simp [mainRamp, h, checkedDiv, hn0]
    refine ⟨_, hmr, fun w hw => ?_⟩
    have h2 : n * ((target - stored) / n) ≤ target - stored := by
      rw [Nat.mul_comm]; exact Nat.div_mul_le_self _ n
    have := rampWrites_inc_mem ((target - stored) / n) target n stored (by omega) w hw
    omega
  · have h1 : ¬ stored < target := by omega
    have hmr : mainRamp stored target n =
        .ramp (rampWrites true ((stored - target) / n) target stored n) := by
      simp [mainRamp, h1, h, checkedDiv, hn0]
    refine ⟨_, hmr, fun w hw => ?_⟩
    have h2 : n * ((stored - target) / n) ≤ stored - target := by
      rw [Nat.mul_comm]; exact Nat.div_mul_le_self _ n
    have := rampWrites_dec_mem ((stored - target) / n) target n stored (by omega) w hw
    omega

/-- C10 (witness): bounds at `stored = 10`, `target = 0`,
`totalFrames = 3` (writes `7, 4, 1`, all within `[0, 10]`). -/
theorem C10_writes_within_bounds_witness :
    ∃ ws, mainRamp 10 0 3 = .ramp ws ∧
      ∀ w ∈ ws, min 10 0 ≤ w ∧ w ≤ max 10 0 :=
  C10_writes_within_bounds 10 0 3 (by decide) (by decide)

/-! ## Decimal text, parsing, and file contents
(src/main.rs lines 28–34, 52–60, 186–195) -/

/-- Numeric value of an ASCII digit character. -/
def digitVal (c : Char) : ℕ := c.toNat - 48

/-- `c` is an ASCII digit (the characters accepted by `u64::from_str`
for each position of the numeric portion). -/
def isDigitCh (c : Char) : Bool := decide (48 ≤ c.toNat ∧ c.toNat ≤ 57)

/-- A nonempty all-digit string evaluated as a decimal number; `none`
on an empty string or any non-digit character. -/
def parseDigits (cs : List Char) : Option ℕ :=
  if cs = [] then none
  else if cs.all isDigitCh then
    some (cs.foldl (fun a c => a * 10 + digitVal c) 0)
  else none

/-- Model of Rust's `str::parse::<u64>` (`u64::from_str`), used by
`impl FromStr for Brightness` (src/main.rs lines 28–34): an optional
leading `+`, then one or more decimal digits, value within `u64` range
(`PosOverflow` otherwise — also `none` here). -/
def parseU64 (cs : List Char) : Option ℕ :=
  let t := if cs.head? = some '+' then cs.tail else cs
  match parseDigits t with
  | some n => if n < 2 ^ 64 then some n else none
  | none => none

/-- Decimal digits of `n`, most significant first, via repeated division
by 10 (fuel-structured; `fuel > n` suffices).  This is the text produced
by `write!(f, "{}", n)` for a `u64`. -/
def decChars : ℕ → ℕ → List Char
  | 0, _ => []
  | fuel + 1, n =>
    if n < 10 then [Char.ofNat (n + 48)]
    else decChars fuel (n / 10) ++ [Char.ofNat (n % 10 + 48)]

/-- The decimal text of `n`: the output of the `Display` impl for
`Brightness` (src/main.rs lines 22–26), i.e. `format!("{}", n)` — no
sign, no newline. -/
def decRep (n : ℕ) : String := ⟨decChars (n + 1) n⟩

/-- Unicode `White_Space`, the class trimmed by Rust's `str::trim`. -/
def isRustWs (c : Char) : Bool :=
  decide (c.toNat = 9 ∨ c.toNat = 10 ∨ c.toNat = 11 ∨ c.toNat = 12 ∨
    c.toNat = 13 ∨ c.toNat = 32 ∨ c.toNat = 133 ∨ c.toNat = 160 ∨
    c.toNat = 5760 ∨ (8192 ≤ c.toNat ∧ c.toNat ≤ 8202) ∨ c.toNat = 8232 ∨
    c.toNat = 8233 ∨ c.toNat = 8239 ∨ c.toNat = 8287 ∨ c.toNat = 12288)

/-- Rust `str::trim`: drop whitespace from both ends. -/
def rustTrim (cs : List Char) : List Char :=
  ((cs.dropWhile isRustWs).reverse.dropWhile isRustWs).reverse

/-- `Brightness::from_file` (src/main.rs lines 52–60) applied to the
file's contents: `read_to_string(path)?.trim().parse()?`.  The two
`anyhow` contexts collapse to `none`; `some` carries the parsed value. -/
def from_file (contents : String) : Option ℕ :=
  parseU64 (rustTrim contents.data)

/-- `save` (src/main.rs lines 191–195): `File::create` truncates the
state file and `write!(output, "{}", brightness.0)` leaves exactly the
decimal text of the value as its contents (no newline). -/
def save (brightness : ℕ) : String := decRep brightness

/-- `set_brightness` (src/main.rs lines 186–189): `write!(f, "{}",
brightness.0)` on the already-open handle.  A `std::fs::File` write
emits the bytes at the handle's cursor, which after the previous writes
sits at end-of-file, so the decimal text is appended to the current
contents. -/
def set_brightness (contents : String) (brightness : ℕ) : String :=
  contents ++ decRep brightness

/-- Contents of the brightness-control file after `File::create`
(truncation to empty, src/main.rs line 155) followed by one
`set_brightness` call per element of `writes`. -/
def fileAfterWrites (writes : List ℕ) : String :=
  writes.foldl set_brightness ""

/-- `input.strip_suffix('%')` (src/main.rs line 38): `some` of the text
before a final `%`, `none` when the input does not end in `%`. -/
def stripPercent (s : String) : Option String :=
  match s.data.getLast? with
  | some c => if c = '%' then some ⟨s.data.dropLast⟩ else none
  | none => none

/-! ### Decimal round-trip lemmas -/

theorem toNat_ofNat_digit (m : ℕ) (hm : m < 10) :
    (Char.ofNat (m + 48)).toNat = m + 48 := by
  interval_cases m <;> decide

theorem isDigitCh_ofNat_digit (m : ℕ) (hm : m < 10) :
    isDigitCh (Char.ofNat (m + 48)) = true := by
  interval_cases m <;> decide

theorem digit_not_ws (c : Char) (h : isDigitCh c = true) : isRustWs c = false := by
  simp only [isDigitCh, decide_eq_true_eq] at h
  simp only [isRustWs, decide_eq_false_iff_not]
  omega

/-- Soundness of the decimal printer: for sufficient fuel the digit list
is nonempty, all-digit, and folds back to `n`. -/
theorem decChars_spec :
    ∀ fuel n, n < fuel →
      decChars fuel n ≠ [] ∧
      (∀ c ∈ decChars fuel n, isDigitCh c = true) ∧
      (decChars fuel n).foldl (fun a c => a * 10 + digitVal c) 0 = n := by
  intro fuel
  induction fuel with
  | zero => intro n hn; omega
  | succ fuel ih =>
    intro n hn
    by_cases h10 : n < 10
    · refine ⟨by simp [decChars, h10], ?_, ?_⟩
      · intro c hc
        simp only [decChars, if_pos h10, List.mem_singleton] at hc
        subst hc
        exact isDigitCh_ofNat_digit n h10
      · simp only [decChars, if_pos h10, List.foldl_cons, List.foldl_nil]
        simp [digitVal, toNat_ofNat_digit n h10]
    · have hdiv : n / 10 < fuel := by omega
      obtain ⟨hne, hdig, hval⟩ := ih (n / 10) hdiv
      have hmod : n % 10 < 10 := Nat.mod_lt n (by omega)
      refine ⟨by simp [decChars, h10], ?_, ?_⟩
      · intro c hc
        simp only [decChars, if_neg h10, List.mem_append, List.mem_singleton] at hc
        rcases hc with hc | hc
        · exact hdig c hc
        · subst hc
          exact isDigitCh_ofNat_digit _ hmod
      · simp only [decChars, if_neg h10, List.foldl_append, List.foldl_cons,
          List.foldl_nil, hval]
        have hdv : digitVal (Char.ofNat (n % 10 + 48)) = n % 10 := by
          simp [digitVal, toNat_ofNat_digit _ hmod]
        rw [hdv]
        omega

theorem dropWhile_ws_of_digits (l : List Char)
    (hl : ∀ c ∈ l, isDigitCh c = true) : l.dropWhile isRustWs = l := by
  cases l with
  | nil => simp
  | cons a l =>
    have ha : isRustWs a = false := digit_not_ws a (hl a (List.mem_cons_self a l))
    simp [List.dropWhile_cons, ha]

theorem rustTrim_of_digits (cs : List Char)
    (h : ∀ c ∈ cs, isDigitCh c = true) : rustTrim cs = cs := by
  unfold rustTrim
  rw [dropWhile_ws_of_digits cs h]
  rw [dropWhile_ws_of_digits cs.reverse (fun c hc => h c (List.mem_reverse.mp hc))]
  exact List.reverse_reverse cs

theorem head?_ne_plus_of_digits (cs : List Char)
    (h : ∀ c ∈ cs, isDigitCh c = true) : cs.head? ≠ some '+' := by
  cases cs with
  | nil => simp
  | cons a l =>
    have ha := h a (List.mem_cons_self a l)
    simp only [List.head?_cons, ne_eq, Option.some.injEq]
    intro hplus
    subst hplus
    simp [isDigitCh] at ha

/-- Full decimal round trip at the parser level. -/
theorem parseU64_decChars (n : ℕ) (hn : n < 2 ^ 64) :
    parseU64 (decChars (n + 1) n) = some n := by
  obtain ⟨hne, hdig, hval⟩ := decChars_spec (n + 1) n (by omega)
  have hpd : parseDigits (decChars (n + 1) n) = some n := by
    unfold parseDigits
    rw [if_neg hne, if_pos (List.all_eq_true.mpr hdig), hval]
  have hplus := head?_ne_plus_of_digits _ hdig
  simp only [parseU64, if_neg hplus, hpd]
  rw [if_pos (show n < 2 ^ 64 from hn)]

/-! ## Claims C4, C5, C8, C9 -/

/-- C4 (counterexample): the handle is opened once before the loop and
`write!` emits at the cursor, so a two-frame ramp from 100 to 80
(writes 90 then 80) leaves the file containing `"9080"` — the
concatenation — not just the decimal text `"80"` of the last value. -/
theorem C4_counterexample :
    mainRamp 100 80 2 = .ramp [90, 80] ∧
    fileAfterWrites [90, 80] = "9080" ∧
    fileAfterWrites [90, 80] ≠ decRep 80 := by
  refine ⟨by decide, by decide, by decide⟩

/-- C4 (amended): the brightness-control file handle is opened once
before the loop (truncating the file); each per-frame write appends
exactly the decimal text of the new value — no newline — at the file
cursor, so after each frame the file contains the concatenation of the
decimal texts of all values written so far. -/
theorem C4_write_appends (ws : List ℕ) (b : ℕ) :
    fileAfterWrites (ws ++ [b]) = fileAfterWrites ws ++ decRep b := by
  unfold fileAfterWrites
  rw [List.foldl_append]
  rfl

/-- C5: for every resolved target and device-reported maximum, the
clamped target never exceeds the maximum, and a resolved value greater
than the maximum is replaced by the maximum (one below or at the
maximum is kept). -/
theorem C5_clamp_le_max (target maximum : ℕ) :
    clampedTarget target maximum ≤ maximum ∧
    (maximum < target → clampedTarget target maximum = maximum) ∧
    (target ≤ maximum → clampedTarget target maximum = target) := by
  refine ⟨?_, ?_, ?_⟩
  · unfold clampedTarget
    split_ifs with h <;> omega
  · intro h
    unfold clampedTarget
    rw [if_pos h]
  · intro h
    unfold clampedTarget
    rw [if_neg (by omega)]

/-- C5 (witness): clamping at target 500 / maximum 100 and at
target 7 / maximum 100. -/
theorem C5_clamp_le_max_witness :
    clampedTarget 500 100 ≤ 100 ∧ clampedTarget 500 100 = 100 ∧
      clampedTarget 7 100 = 7 :=
  ⟨(C5_clamp_le_max 500 100).1, (C5_clamp_le_max 500 100).2.1 (by decide),
    (C5_clamp_le_max 7 100).2.2 (by decide)⟩

/-- C8: saving a brightness value `V` to the state file and then
restoring (trim + parse of the file's contents) yields exactly `V`:
the decimal-text round trip through `save` and `from_file` is the
identity on `u64` brightness values. -/
theorem C8_save_restore (V : ℕ) (hV : V < 2 ^ 64) :
    from_file (save V) = some V := by
  unfold from_file save decRep
  obtain ⟨hne, hdig, hval⟩ := decChars_spec (V + 1) V (by omega)
  rw [show (String.mk (decChars (V + 1) V)).data = decChars (V + 1) V from rfl]
  rw [rustTrim_of_digits _ hdig]
  exact parseU64_decChars V hV

/-- C8 (witness): the round trip at `V = 1337`. -/
theorem C8_save_restore_witness : from_file (save 1337) = some 1337 :=
  C8_save_restore 1337 (by norm_num)

/-- C9: the per-frame sleep argument is the constant `1000 / 60`
milliseconds (`= 16` in `u64` arithmetic), independent of the
`--framerate` flag; the framerate enters only the `total_frames`
product. -/
theorem C9_sleep_independent_of_framerate :
    (∀ f f', frameSleepMillis f = frameSleepMillis f') ∧
    (∀ f, frameSleepMillis f = 16) ∧
    (∀ d f, total_frames d f = d * f) :=
  ⟨fun _ _ => rfl, fun _ => rfl, fun _ _ => rfl⟩

/-! ## IEEE binary64 arithmetic model over `ℚ`

`parse_with_percentage` (src/main.rs line 45) computes
`((percentage as f64 / 100.0) * max.0 as f64) as u64`.  Every finite
`f64` value is a rational, and every `f64` operation on the values
occurring here (magnitudes below `2^64`, no overflow to infinity, no
NaN) is "compute the exact rational result, then round to nearest,
ties to even".  `rnd` is that rounding map (with the subnormal cutoff
at `2^(-1022)`), so `u64 → f64` conversion is `rnd ∘ cast`, `f64`
division of exact operands is `rnd (a / b)`, and multiplication is
`rnd (a * b)`. -/

/-- Round a rational to the nearest integer, ties to even (the IEEE
default rounding of a value already scaled by the ulp). -/
def rne (q : ℚ) : ℤ :=
  if q - ⌊q⌋ < 1 / 2 then ⌊q⌋
  else if 1 / 2 < q - ⌊q⌋ then ⌊q⌋ + 1
  else if ⌊q⌋ % 2 = 0 then ⌊q⌋ else ⌊q⌋ + 1

/-- Exponent of the ulp of a positive rational in binary64: 52 below
the binade exponent, with the subnormal clamp at `-1022`. -/
def fexp (q : ℚ) : ℤ := max (Int.log 2 q) (-1022) - 52

/-- Round a nonnegative rational to the nearest binary64 value
(round-to-nearest, ties to even).  Arguments `≤ 0` only occur here as
exact zeros. -/
def rnd (q : ℚ) : ℚ :=
  if q ≤ 0 then 0 else (rne (q / 2 ^ fexp q) : ℚ) * 2 ^ fexp q

/-- Rust's saturating `as u64` cast of a (finite, here nonnegative)
`f64` value: truncate toward zero, clamp to `[0, u64::MAX]`. -/
def f64toU64 (q : ℚ) : ℕ :=
  if q ≤ 0 then 0
  else if (2 : ℚ) ^ (64 : ℕ) ≤ q then 2 ^ 64 - 1
  else ⌊q⌋.toNat

/-- The successful value of the percentage branch (src/main.rs
lines 44–46): `((percentage as f64 / 100.0) * max.0 as f64) as u64`,
with each `f64` operation correctly rounded. -/
def pctToBrightness (percentage max : ℕ) : ℕ :=
  f64toU64 (rnd (rnd (rnd (percentage : ℚ) / 100) * rnd (max : ℚ)))

/-- The error kinds of `parse_with_percentage` (src/main.rs
lines 11–17).  `InvalidBrightness` stands for a `u64` parse failure:
the payload of `DimmerError::InvalidBrightness` is the
`std::num::ParseIntError` produced by `parse::<u64>()` (wrapped via
`#[from]`; at the call sites inside `parse_with_percentage` the same
`ParseIntError` reaches `anyhow` through `?`). -/
inductive DimmerError where
  | InvalidPercentage : DimmerError
  | InvalidBrightness : DimmerError
  deriving DecidableEq

/-- `Brightness::parse_with_percentage` (src/main.rs lines 37–50):

    match input.strip_suffix('%') {
        Some(percentage) => {
            let percentage = percentage.parse::<u64>()?;
            if percentage > 100 {
                return Err(DimmerError::InvalidPercentage.into());
            }
            Ok(Brightness(((percentage as f64 / 100.0) * max.0 as f64) as u64))
        }
        None => Ok(input.parse::<u64>().map(Brightness)?),
    } -/
def parse_with_percentage (input : String) (max : ℕ) : Except DimmerError ℕ :=
  match stripPercent input with
  | some percentage =>
    match parseU64 percentage.data with
    | none => .error .InvalidBrightness
    | some p =>
      if p > 100 then .error .InvalidPercentage
      else .ok (pctToBrightness p max)
  | none =>
    match parseU64 input.data with
    | none => .error .InvalidBrightness
    | some n => .ok n

/-- The percentage string for `p`: decimal text followed by `%`. -/
def pctStr (p : ℕ) : String := ⟨decChars (p + 1) p ++ ['%']⟩

/-! ### Round-to-nearest-even: basic bounds -/

theorem rne_floor_le (q : ℚ) : ⌊q⌋ ≤ rne q := by
  unfold rne
  split_ifs <;> omega

theorem rne_le_floor_add_one (q : ℚ) : rne q ≤ ⌊q⌋ + 1 := by
  unfold rne
  split_ifs <;> omega

theorem rne_intCast (k : ℤ) : rne (k : ℚ) = k := by
  unfold rne
  rw [Int.floor_intCast]
  rw [if_pos (by norm_num)]

theorem rne_mono {q q' : ℚ} (h : q ≤ q') : rne q ≤ rne q' := by
  have hf : ⌊q⌋ ≤ ⌊q'⌋ := Int.floor_mono h
  rcases lt_or_eq_of_le hf with hlt | heq
  · have h1 := rne_le_floor_add_one q
    have h2 := rne_floor_le q'
    omega
  · have hr : q - (⌊q⌋ : ℚ) ≤ q' - (⌊q⌋ : ℚ) := by linarith
    unfold rne
    rw [← heq]
    split_ifs <;> first | omega | linarith

/-! ### Rounding: bounds and monotonicity -/

theorem two_zpow_int (n : ℕ) : ((2 ^ n : ℤ) : ℚ) = (2 : ℚ) ^ (n : ℤ) := by
  rw [zpow_natCast]
  push_cast
  ring

theorem log2_le_self_q {q : ℚ} (hq : 0 < q) : (2 : ℚ) ^ Int.log 2 q ≤ q := by
  have h := Int.zpow_log_le_self (b := 2) one_lt_two hq
  rwa [Nat.cast_ofNat] at h

theorem lt_log2_succ_q (q : ℚ) : q < (2 : ℚ) ^ (Int.log 2 q + 1) := by
  have h := Int.lt_zpow_succ_log_self (b := 2) one_lt_two q
  rwa [Nat.cast_ofNat] at h

theorem logTwo_eq_of {q : ℚ} {e : ℤ} (h0 : 0 < q) (hl : (2 : ℚ) ^ e ≤ q)
    (hu : q < (2 : ℚ) ^ (e + 1)) : Int.log 2 q = e := by
  have h1 : e ≤ Int.log 2 q :=
    (Int.zpow_le_iff_le_log (b := 2) one_lt_two h0).mp (by rwa [Nat.cast_ofNat])
  have h2 : Int.log 2 q < e + 1 :=
    (Int.lt_zpow_iff_log_lt (b := 2) one_lt_two h0).mp (by rwa [Nat.cast_ofNat])
  omega

theorem rnd_nonneg (q : ℚ) : 0 ≤ rnd q := by
  unfold rnd
  split_ifs with h
  · exact le_refl 0
  · push_neg at h
    have he : (0 : ℚ) < 2 ^ fexp q := zpow_pos (by norm_num) _
    have hx : (0 : ℚ) ≤ q / 2 ^ fexp q := (div_pos h he).le
    have h0 : (0 : ℤ) ≤ rne (q / 2 ^ fexp q) :=
      le_trans (Int.floor_nonneg.mpr hx) (rne_floor_le _)
    exact mul_nonneg (by exact_mod_cast h0) he.le

theorem rnd_le_zpow {q : ℚ} (hq : 0 < q) :
    rnd q ≤ 2 ^ (max (Int.log 2 q) (-1022) + 1) := by
  have hM : Int.log 2 q + 1 ≤ max (Int.log 2 q) (-1022) + 1 := by omega
  have hqlt : q < (2 : ℚ) ^ (max (Int.log 2 q) (-1022) + 1) :=
    lt_of_lt_of_le (lt_log2_succ_q q) (zpow_le_zpow_right₀ one_le_two hM)
  unfold rnd
  rw [if_neg (not_le.mpr hq)]
  have hfe : fexp q = max (Int.log 2 q) (-1022) - 52 := rfl
  have hepos : (0 : ℚ) < 2 ^ fexp q := zpow_pos (by norm_num) _
  have hxlt : q / 2 ^ fexp q < (2 : ℚ) ^ (53 : ℤ) := by
    rw [div_lt_iff₀ hepos, ← zpow_add₀ (two_ne_zero)]
    have h53 : (53 : ℤ) + fexp q = max (Int.log 2 q) (-1022) + 1 := by
      rw [hfe]; omega
    rw [h53]
    exact hqlt
  have hfl : rne (q / 2 ^ fexp q) ≤ 2 ^ 53 := by
    have h1 : ⌊q / 2 ^ fexp q⌋ < (2 : ℤ) ^ 53 := by
      rw [Int.floor_lt, two_zpow_int]
      exact hxlt
    have h2 := rne_le_floor_add_one (q / 2 ^ fexp q)
    omega
  calc (rne (q / 2 ^ fexp q) : ℚ) * 2 ^ fexp q
      ≤ (2 : ℚ) ^ (53 : ℤ) * 2 ^ fexp q := by
        apply mul_le_mul_of_nonneg_right _ hepos.le
        exact_mod_cast hfl
    _ = 2 ^ (max (Int.log 2 q) (-1022) + 1) := by
        rw [← zpow_add₀ two_ne_zero]
        congr 1
        rw [hfe]; omega

theorem zpow_le_rnd {q : ℚ} (hq : 0 < q) (h : -1022 ≤ Int.log 2 q) :
    (2 : ℚ) ^ Int.log 2 q ≤ rnd q := by
  unfold rnd
  rw [if_neg (not_le.mpr hq)]
  have hfe : fexp q = Int.log 2 q - 52 := by
    unfold fexp
    omega
  rw [hfe]
  have hepos : (0 : ℚ) < 2 ^ (Int.log 2 q - 52) := zpow_pos (by norm_num) _
  have hx : (2 : ℚ) ^ (52 : ℤ) ≤ q / 2 ^ (Int.log 2 q - 52) := by
    rw [le_div_iff₀ hepos, ← zpow_add₀ two_ne_zero]
    have h52 : (52 : ℤ) + (Int.log 2 q - 52) = Int.log 2 q := by omega
    rw [h52]
    exact log2_le_self_q hq
  have hrne : (2 : ℤ) ^ (52 : ℕ) ≤ rne (q / 2 ^ (Int.log 2 q - 52)) := by
    refine le_trans (Int.le_floor.mpr ?_) (rne_floor_le _)
    rw [two_zpow_int]
    exact hx
  calc (2 : ℚ) ^ Int.log 2 q = 2 ^ (52 : ℤ) * 2 ^ (Int.log 2 q - 52) := by
        rw [← zpow_add₀ two_ne_zero]
        congr 1
        omega
    _ ≤ (rne (q / 2 ^ (Int.log 2 q - 52)) : ℚ) * 2 ^ (Int.log 2 q - 52) := by
        apply mul_le_mul_of_nonneg_right _ hepos.le
        exact_mod_cast hrne

theorem rnd_mono {q q' : ℚ} (h : q ≤ q') : rnd q ≤ rnd q' := by
  by_cases hq : q ≤ 0
  · have : rnd q = 0 := by unfold rnd; rw [if_pos hq]
    rw [this]
    exact rnd_nonneg q'
  · push_neg at hq
    have hq' : 0 < q' := lt_of_lt_of_le hq h
    have hlog : Int.log 2 q ≤ Int.log 2 q' := Int.log_mono_right hq h
    have hMM : max (Int.log 2 q) (-1022) ≤ max (Int.log 2 q') (-1022) := by omega
    rcases lt_or_eq_of_le hMM with hlt | heq
    · have hup : rnd q ≤ 2 ^ (max (Int.log 2 q) (-1022) + 1) := rnd_le_zpow hq
      have hlog' : -1022 ≤ Int.log 2 q' := by omega
      have hM' : max (Int.log 2 q') (-1022) = Int.log 2 q' := by omega
      have hlow : (2 : ℚ) ^ Int.log 2 q' ≤ rnd q' := zpow_le_rnd hq' hlog'
      have hmid : (2 : ℚ) ^ (max (Int.log 2 q) (-1022) + 1) ≤ (2 : ℚ) ^ Int.log 2 q' := by
        apply zpow_le_zpow_right₀ one_le_two
        omega
      linarith
    · have hfe : fexp q = fexp q' := by
        unfold fexp
        omega
      unfold rnd
      rw [if_neg (not_le.mpr hq), if_neg (not_le.mpr hq'), hfe]
      have hepos : (0 : ℚ) < 2 ^ fexp q' := zpow_pos (by norm_num) _
      have hxle : q / 2 ^ fexp q' ≤ q' / 2 ^ fexp q' := (div_le_div_iff_of_pos_right hepos).mpr h
      have hr : rne (q / 2 ^ fexp q') ≤ rne (q' / 2 ^ fexp q') := rne_mono hxle
      apply mul_le_mul_of_nonneg_right _ hepos.le
      exact_mod_cast hr

/-- A positive value that is an integer multiple of its own ulp is a
binary64 value: rounding fixes it. -/
theorem rnd_eq_self (q : ℚ) (k : ℤ) (hq : 0 < q)
    (hk : q = (k : ℚ) * 2 ^ fexp q) : rnd q = q := by
  unfold rnd
  rw [if_neg (not_le.mpr hq)]
  have hne : (2 : ℚ) ^ fexp q ≠ 0 := ne_of_gt (zpow_pos (by norm_num) _)
  have hx : q / 2 ^ fexp q = (k : ℚ) := by
    rw [div_eq_iff hne]
    exact hk
  rw [hx, rne_intCast, ← hk]

/-- Integers up to `2^53` are exactly representable in binary64. -/
theorem rnd_natCast {n : ℕ} (hn : n ≤ 2 ^ 53) : rnd (n : ℚ) = n := by
  rcases Nat.eq_zero_or_pos n with h0 | h0
  · subst h0
    unfold rnd
    rw [if_pos (by norm_num)]
    norm_num
  · have hq : (0 : ℚ) < (n : ℚ) := by exact_mod_cast h0
    have hL0 : 0 ≤ Int.log 2 (n : ℚ) := by
      rw [Int.log_natCast]
      exact Int.natCast_nonneg _
    have hfe : fexp (n : ℚ) = Int.log 2 (n : ℚ) - 52 := by
      unfold fexp
      omega
    have hLle : Int.log 2 (n : ℚ) ≤ 53 := by
      by_contra hc
      push_neg at hc
      have h1 : (2 : ℚ) ^ (54 : ℤ) ≤ (2 : ℚ) ^ Int.log 2 (n : ℚ) :=
        zpow_le_zpow_right₀ one_le_two (by omega)
      have h2 : (2 : ℚ) ^ Int.log 2 (n : ℚ) ≤ (n : ℚ) := log2_le_self_q hq
      have h3 : (n : ℚ) ≤ 9007199254740992 := by
        have hn' : n ≤ 9007199254740992 := by
          norm_num at hn
          exact hn
        exact_mod_cast hn'
      have h4 : (9007199254740992 : ℚ) < (2 : ℚ) ^ (54 : ℤ) := by norm_num
      linarith
    by_cases hL52 : Int.log 2 (n : ℚ) ≤ 52
    · apply rnd_eq_self _ ((n : ℤ) * 2 ^ (52 - Int.log 2 (n : ℚ)).toNat) hq
      rw [hfe]
      have hcast : (((n : ℤ) * 2 ^ (52 - Int.log 2 (n : ℚ)).toNat : ℤ) : ℚ) =
          (n : ℚ) * (2 : ℚ) ^ (((52 - Int.log 2 (n : ℚ)).toNat : ℕ) : ℤ) := by
        push_cast
        rw [zpow_natCast]
      rw [hcast, Int.toNat_of_nonneg (by omega : (0 : ℤ) ≤ 52 - Int.log 2 (n : ℚ))]
      rw [mul_assoc, ← zpow_add₀ (two_ne_zero : (2 : ℚ) ≠ 0)]
      have hz : 52 - Int.log 2 (n : ℚ) + (Int.log 2 (n : ℚ) - 52) = 0 := by omega
      rw [hz, zpow_zero, mul_one]
    · have hL53 : Int.log 2 (n : ℚ) = 53 := by omega
      have hn53 : n = 2 ^ 53 := by
        have h2 : (2 : ℚ) ^ (53 : ℤ) ≤ (n : ℚ) := by
          rw [← hL53]
          exact log2_le_self_q hq
        have h2' : (9007199254740992 : ℚ) ≤ (n : ℚ) := by
          have he : (2 : ℚ) ^ (53 : ℤ) = 9007199254740992 := by norm_num
          linarith
        have h2n : (9007199254740992 : ℕ) ≤ n := by exact_mod_cast h2'
        norm_num at hn ⊢
        omega
      subst hn53
      apply rnd_eq_self _ ((2 : ℤ) ^ 52) hq
      rw [hfe, hL53]
      push_cast
      norm_num

/-! ### The saturating cast and the percentage value -/

theorem f64toU64_mono {a b : ℚ} (h : a ≤ b) : f64toU64 a ≤ f64toU64 b := by
  unfold f64toU64
  by_cases h1 : a ≤ 0
  · rw [if_pos h1]
    exact Nat.zero_le _
  · push_neg at h1
    have hb0 : ¬ b ≤ 0 := by linarith
    rw [if_neg (by linarith : ¬ a ≤ 0), if_neg hb0]
    by_cases h2 : (2 : ℚ) ^ (64 : ℕ) ≤ a
    · rw [if_pos h2, if_pos (le_trans h2 h)]
    · rw [if_neg h2]
      push_neg at h2
      have hlit : ((2 : ℚ) ^ (64 : ℕ)) = 18446744073709551616 := by norm_num
      have hfa : ⌊a⌋ < 18446744073709551616 := by
        rw [Int.floor_lt]
        push_cast
        linarith
      by_cases h3 : (2 : ℚ) ^ (64 : ℕ) ≤ b
      · rw [if_pos h3]
        have hlit2 : (2 : ℕ) ^ 64 - 1 = 18446744073709551615 := by norm_num
        rw [hlit2]
        omega
      · rw [if_neg h3]
        have hm := Int.floor_mono h
        omega

theorem f64toU64_le_of_le {y : ℚ} {M : ℕ} (hy : y ≤ (M : ℚ)) (hM : M ≤ 2 ^ 53) :
    f64toU64 y ≤ M := by
  unfold f64toU64
  split_ifs with h1 h2
  · exact Nat.zero_le _
  · exfalso
    have hMn : M ≤ 9007199254740992 := by
      norm_num at hM
      exact hM
    have hMq : (M : ℚ) ≤ 9007199254740992 := by exact_mod_cast hMn
    have hlit : ((2 : ℚ) ^ (64 : ℕ)) = 18446744073709551616 := by norm_num
    linarith
  · have hfl : ⌊y⌋ ≤ (M : ℤ) := by
      have hm := Int.floor_mono hy
      rwa [Int.floor_natCast] at hm
    omega

/-- Range half of C6, for a maximum that is exactly representable: the
percentage value never exceeds the maximum. -/
theorem pctToBrightness_le {p M : ℕ} (hp : p ≤ 100) (hM : M ≤ 2 ^ 53) :
    pctToBrightness p M ≤ M := by
  unfold pctToBrightness
  have hp' : rnd (p : ℚ) = p := rnd_natCast (by omega)
  have hM' : rnd (M : ℚ) = M := rnd_natCast hM
  have hx1 : rnd (rnd (p : ℚ) / 100) ≤ 1 := by
    have hdiv : rnd (p : ℚ) / 100 ≤ ((1 : ℕ) : ℚ) := by
      rw [hp']
      have hpq : (p : ℚ) ≤ 100 := by exact_mod_cast hp
      push_cast
      linarith
    calc rnd (rnd (p : ℚ) / 100) ≤ rnd ((1 : ℕ) : ℚ) := rnd_mono hdiv
      _ = 1 := by rw [rnd_natCast (by norm_num)]; norm_num
  have hx0 : 0 ≤ rnd (rnd (p : ℚ) / 100) := rnd_nonneg _
  have hy : rnd (rnd (rnd (p : ℚ) / 100) * rnd (M : ℚ)) ≤ (M : ℚ) := by
    have hmul : rnd (rnd (p : ℚ) / 100) * rnd (M : ℚ) ≤ ((M : ℕ) : ℚ) := by
      rw [hM']
      have hMq : (0 : ℚ) ≤ (M : ℚ) := by positivity
      nlinarith
    calc rnd (rnd (rnd (p : ℚ) / 100) * rnd (M : ℚ)) ≤ rnd ((M : ℕ) : ℚ) :=
        rnd_mono hmul
      _ = M := rnd_natCast hM
  exact f64toU64_le_of_le hy hM

/-- Monotonicity half of C6, for every maximum: the percentage value is
non-decreasing in the percentage. -/
theorem pctToBrightness_mono {p p' : ℕ} (M : ℕ) (h : p ≤ p') :
    pctToBrightness p M ≤ pctToBrightness p' M := by
  unfold pctToBrightness
  apply f64toU64_mono
  apply rnd_mono
  apply mul_le_mul_of_nonneg_right _ (rnd_nonneg (M : ℚ))
  apply rnd_mono
  apply div_le_div_of_nonneg_right ?_ (by norm_num)
  · exact rnd_mono (by exact_mod_cast h)

/-! ### Percentage strings -/

theorem stripPercent_pctStr (p : ℕ) :
    stripPercent (pctStr p) = some ⟨decChars (p + 1) p⟩ := by
  simp [stripPercent, pctStr, List.getLast?_concat, List.dropLast_concat]

theorem parse_pctStr (p M : ℕ) (hp : p ≤ 100) :
    parse_with_percentage (pctStr p) M = .ok (pctToBrightness p M) := by
  simp only [parse_with_percentage, stripPercent_pctStr]
  rw [parseU64_decChars p (by omega)]
  simp only [gt_iff_lt]
  rw [if_neg (by omega)]

/-! ### Concrete binary64 computation at `max = 2^53 + 3` -/

theorem rnd_big_up : rnd ((9007199254740995 : ℕ) : ℚ) = 9007199254740996 := by
  have hcast : ((9007199254740995 : ℕ) : ℚ) = (9007199254740995 : ℚ) := by
    push_cast
    ring
  rw [hcast]
  have hlog : Int.log 2 (9007199254740995 : ℚ) = 53 :=
    logTwo_eq_of (by norm_num) (by norm_num) (by norm_num)
  have hfe : fexp (9007199254740995 : ℚ) = 1 := by
    unfold fexp
    rw [hlog]
    omega
  unfold rnd
  rw [if_neg (by norm_num), hfe]
  have h21 : (2 : ℚ) ^ (1 : ℤ) = 2 := by norm_num
  rw [h21]
  have hrne : rne ((9007199254740995 : ℚ) / 2) = 4503599627370498 := by
    unfold rne
    have hfl : ⌊(9007199254740995 : ℚ) / 2⌋ = 4503599627370497 := by norm_num
    rw [hfl]
    rw [if_neg (by push_cast; norm_num), if_neg (by push_cast; norm_num),
      if_neg (by norm_num)]
    norm_num
  rw [hrne]
  push_cast
  norm_num

theorem rnd_big_fix : rnd (9007199254740996 : ℚ) = 9007199254740996 := by
  have hlog : Int.log 2 (9007199254740996 : ℚ) = 53 :=
    logTwo_eq_of (by norm_num) (by norm_num) (by norm_num)
  have hfe : fexp (9007199254740996 : ℚ) = 1 := by
    unfold fexp
    rw [hlog]
    omega
  apply rnd_eq_self _ 4503599627370498 (by norm_num)
  rw [hfe]
  push_cast
  norm_num

theorem pct_compute_big :
    pctToBrightness 100 9007199254740995 = 9007199254740996 := by
  have e1 : rnd ((100 : ℕ) : ℚ) = 100 := by
    rw [rnd_natCast (by norm_num)]
    norm_num
  have e2 : rnd ((1 : ℕ) : ℚ) = 1 := by
    rw [rnd_natCast (by norm_num)]
    norm_num
  unfold pctToBrightness
  rw [e1, rnd_big_up]
  have hdiv : (100 : ℚ) / 100 = ((1 : ℕ) : ℚ) := by norm_num
  rw [hdiv, e2, one_mul, rnd_big_fix]
  unfold f64toU64
  rw [if_neg (by norm_num), if_neg (by norm_num)]
  have hfl : ⌊(9007199254740996 : ℚ)⌋ = 9007199254740996 := by norm_num
  rw [hfl]
  omega

/-! ## Claims C6, C7 -/

/-- C6 (counterexample): at the device maximum `M = 2^53 + 3 =
9007199254740995` (not representable in `f64`; `M as f64` rounds up to
`2^53 + 4`) the percentage string `"100%"` yields `9007199254740996 > M`,
so the value is not in `[0, M]`. -/
theorem C6_counterexample :
    parse_with_percentage (pctStr 100) 9007199254740995 =
      .ok 9007199254740996 ∧
    9007199254740995 < 9007199254740996 := by
  constructor
  · rw [parse_pctStr 100 9007199254740995 (by norm_num)]
    rw [pct_compute_big]
  · norm_num

/-- C6 (amended): for every maximum `M ≤ 2^53` (exactly representable
in `f64`) and every percentage string `"0%"`..`"100%"`,
`parse_with_percentage` yields a value in `[0, M]` (the lower bound is
inherent to `u64`), and for every maximum whatsoever the yielded value
is monotonically non-decreasing in the percentage. -/
theorem C6_pct_range_mono :
    (∀ M p, M ≤ 2 ^ 53 → p ≤ 100 →
      ∃ v, parse_with_percentage (pctStr p) M = .ok v ∧ v ≤ M) ∧
    (∀ M p p', p ≤ p' → p' ≤ 100 →
      ∃ v v', parse_with_percentage (pctStr p) M = .ok v ∧
        parse_with_percentage (pctStr p') M = .ok v' ∧ v ≤ v') := by
  constructor
  · intro M p hM hp
    exact ⟨_, parse_pctStr p M hp, pctToBrightness_le hp hM⟩
  · intro M p p' hpp hp'
    exact ⟨_, _, parse_pctStr p M (by omega), parse_pctStr p' M hp',
      pctToBrightness_mono M hpp⟩

/-- C6 (witness): the amended claim at `M = 100` with `"50%"`, and
monotonicity between `"25%"` and `"75%"`. -/
theorem C6_pct_range_mono_witness :
    (∃ v, parse_with_percentage (pctStr 50) 100 = .ok v ∧ v ≤ 100) ∧
    (∃ v v', parse_with_percentage (pctStr 25) 100 = .ok v ∧
      parse_with_percentage (pctStr 75) 100 = .ok v' ∧ v ≤ v') :=
  ⟨C6_pct_range_mono.1 100 50 (by norm_num) (by norm_num),
   C6_pct_range_mono.2 100 25 75 (by norm_num) (by norm_num)⟩

/-- C7: `parse_with_percentage` fails with `InvalidPercentage` exactly
when the input has a `%` suffix whose numeric portion parses as a `u64`
greater than 100; it fails with `InvalidBrightness` (a `u64` parse
error) exactly when the numeric portion — the part before the `%`
suffix, or the whole input otherwise — does not parse as a non-negative
`u64` integer; in all other cases it returns a brightness value. -/
theorem C7_parse_error_cases (input : String) (max : ℕ) :
    (parse_with_percentage input max = .error .InvalidPercentage ↔
      ∃ pc v, stripPercent input = some pc ∧ parseU64 pc.data = some v ∧
        100 < v) ∧
    (parse_with_percentage input max = .error .InvalidBrightness ↔
      parseU64 (match stripPercent input with
        | some pc => pc
        | none => input).data = none) ∧
    ((∃ v, parse_with_percentage input max = .ok v) ↔
      parse_with_percentage input max ≠ .error .InvalidPercentage ∧
      parse_with_percentage input max ≠ .error .InvalidBrightness) := by
  rcases hs : stripPercent input with _ | pc
  · rcases hp : parseU64 input.data with _ | v
    · refine ⟨?_, ?_, ?_⟩ <;> simp [parse_with_percentage, hs, hp]
    · refine ⟨?_, ?_, ?_⟩ <;> simp [parse_with_percentage, hs, hp]
  · rcases hp : parseU64 pc.data with _ | v
    · refine ⟨?_, ?_, ?_⟩ <;> simp [parse_with_percentage, hs, hp]
    · by_cases hv : v > 100
      · refine ⟨?_, ?_, ?_⟩ <;> simp [parse_with_percentage, hs, hp, hv]
      · refine ⟨?_, ?_, ?_⟩ <;> simp [parse_with_percentage, hs, hp, hv]

end Dimmer
